import Mathlib

/-! Mock barometer driver: line accumulator and command dispatcher.

Shallow embedding of `src/kernel_driver/barometer.c` (the write path: lines 10-12, 33-35,
44-104).

Conventions of the embedding.

* A byte (C `char`) is represented by its unsigned value as a `Nat`; every theorem below
  quantifies over all naturals and hence over all byte values `0 .. 255`.
* A region of memory read as a C string (`const char*`) is a `List Nat`; the memory is taken
  to hold a NUL right after the listed bytes. Library routines that read strings (`strcmp`,
  `strstr`, `strcpy`, the `%s` conversion of `printk`) stop at the first NUL, which is what
  `cstr` computes.
* The module state is the pair of statics `command_buffer` / `command_buffer_pos`.
* The observable trace is the list of reports the command layer makes (`printk` at lines 50,
  56, 67 and the handler call of line 53). The per-call trace line of `fops_write` (line 90)
  is not part of the command layer and is not recorded.
* A byte sequence reaches the accumulator through a sequence of calls of the entry point;
  `ingested` lists the bytes that the calls consume (at most 10 per call), and claims about
  "ingesting a byte sequence" are stated for every sequence of calls that ingests it.
* Memory safety side conditions (indices inside `command_buffer[20]`, `line[21]`, `key[64]`,
  `value[64]`) are not built into the functions: the functions are total and the conditions
  appear as hypotheses or conclusions of theorems.
-/

namespace Barometer

/-! ## Constants (lines 10-12, 33-34) -/

/-- The constant `LF` (line 10): ASCII line feed. -/
def LF : Nat := 10

/-- The string constant `CMD_DELIMITER` (line 11): the one-character string ":". -/
def CMD_DELIMITER : List Nat := [58]

/-- The string constant `CMD_PRESSURE` (line 12): the string "PRESS". -/
def CMD_PRESSURE : List Nat := [80, 82, 69, 83, 83]

/-- The constant `command_buffer_length` (line 34): `sizeof(command_buffer)`, that is 20. -/
def command_buffer_length : Nat := 20

/-- The size of the local array `buff` of `barometer_dev_fops_write` (line 88). -/
def buff_size : Nat := 10

/-! ## State and trace -/

/-- The statics of lines 33-35. -/
structure State where
  command_buffer : List Nat
  command_buffer_pos : Nat
deriving DecidableEq, Repr

/-- The state at module load: a zero-filled static array and `command_buffer_pos = 0`. -/
def State.init : State :=
  { command_buffer := List.replicate 20 0, command_buffer_pos := 0 }

/-- Well-formed states: the array has its declared size and the cursor indexes into it. -/
def State.wf (s : State) : Prop :=
  s.command_buffer.length = command_buffer_length ∧ s.command_buffer_pos < command_buffer_length

instance (s : State) : Decidable s.wf := by
  unfold State.wf; infer_instance

/-- Reports of the command layer, one constructor per reporting statement of the source.
Each carries the strings that the statement prints with `%s`. -/
inductive Event where
  /-- Line 50: the report "parse command: key -> value" made on entry of
  `command_buffer_parse_command`, for every line that has a delimiter (the specification
  calls it `LineParsed`). -/
  | parse_command (key value : List Nat)
  /-- Lines 53 and 45: the handler `command_pressure` runs with `value`. -/
  | command_pressure (value : List Nat)
  /-- Line 56: the report "unknown command: key" (`UnknownCommand`); it prints the key
  only. -/
  | unknown_command (key : List Nat)
  /-- Line 67: the report "invalid line format: line" (`MalformedLine`). -/
  | invalid_line (line : List Nat)
deriving DecidableEq, Repr

/-- Recognises runs of the pressure handler. -/
def Event.is_handler : Event → Bool
  | .command_pressure _ => true
  | _ => false

/-- Recognises the entry report of `command_buffer_parse_command`. -/
def Event.is_dispatch : Event → Bool
  | .parse_command _ _ => true
  | _ => false

/-- Recognises the "unknown command" report. -/
def Event.is_unknown : Event → Bool
  | .unknown_command _ => true
  | _ => false

/-- Recognises the "invalid line format" report. -/
def Event.is_invalid : Event → Bool
  | .invalid_line _ => true
  | _ => false

/-! ## C library routines used by the source -/

/-- The C string stored in a region of memory: the bytes before the first NUL. -/
def cstr : List Nat → List Nat
  | [] => []
  | c :: cs => if c = 0 then [] else c :: cstr cs

/-- The library routine `strcmp` on two regions of memory (each followed by a NUL): compares
byte by byte and stops at the first difference or at a common NUL. -/
def strcmp : List Nat → List Nat → Int
  | [], [] => 0
  | [], c2 :: _ => if c2 = 0 then 0 else -1
  | c1 :: _, [] => if c1 = 0 then 0 else 1
  | c1 :: cs, c2 :: ct =>
    if c1 ≠ c2 then (if c1 < c2 then -1 else 1)
    else if c1 = 0 then 0
    else strcmp cs ct

/-- Whether the string `needle` occurs at the very start of the string `hay`. -/
def starts_with : List Nat → List Nat → Bool
  | [], _ => true
  | _ :: _, [] => false
  | n :: ns, h :: hs => decide (n = h) && starts_with ns hs

/-- Search of `needle` in a string given by its contents: offset of the first occurrence. -/
def strstr_from (needle : List Nat) : List Nat → Option Nat
  | [] => if needle = [] then some 0 else none
  | h :: hs =>
    if starts_with needle (h :: hs) then some 0
    else (strstr_from needle hs).map (· + 1)

/-- The library routine `strstr`: the offset (from the start of `haystack`) of the first
occurrence of the string `needle` in the string stored at `haystack`, or `none` for NULL. -/
def strstr (haystack needle : List Nat) : Option Nat :=
  strstr_from (cstr needle) (cstr haystack)

/-! ## Command layer (lines 44-76) -/

/-- The handler `command_pressure` (lines 44-46): reports the value string. (The source
spells the reporting call `print`; the run of the handler is what is recorded.) -/
def command_pressure (value : List Nat) : List Event :=
  [Event.command_pressure (cstr value)]

/-- The function `command_buffer_parse_command` (lines 49-57): the entry report, then the
handler when `strcmp` finds the key equal to `CMD_PRESSURE`, else the "unknown command"
report. -/
def command_buffer_parse_command (key value : List Nat) : List Event :=
  Event.parse_command (cstr key) (cstr value) ::
    (if strcmp key CMD_PRESSURE = 0 then command_pressure value
     else [Event.unknown_command (cstr key)])

/-- The function `command_buffer_parse_line` (lines 59-76). `line` is the memory the
argument points to. The local `key` holds the `len` bytes before the delimiter followed by
a NUL (lines 71-73); `value` receives the string after the delimiter (line 74). The locals
are `key[64]` and `value[64]`: the definition describes the source for lines whose key and
value have fewer than 64 bytes, and theorems about it are stated within that domain (by
hypothesis, or because lines from the accumulator have at most 19 bytes). -/
def command_buffer_parse_line (line : List Nat) : List Event :=
  match strstr line CMD_DELIMITER with
  | none => [Event.invalid_line (cstr line)]
  | some len =>
    let key := line.take len
    let value := cstr (line.drop (len + 1))
    command_buffer_parse_command key value

/-! ## Line accumulator (lines 78-104)

The accumulator is written once, with the callee of line 83 as a parameter `k`, so that the
same definition yields both the real behaviour (`k := command_buffer_parse_line`) and the
record of the lines handed over (`k := fun line => [line]`). -/

/-- The function `command_buffer_parse` (lines 78-84) with the callee of line 83 as `k`.
The local `line` receives the first `command_buffer_pos` bytes of `command_buffer`
followed by a NUL; the cursor is reset; the callee gets `line`. -/
def command_buffer_parse_with {ε : Type} (k : List Nat → List ε) (s : State) :
    State × List ε :=
  let line := s.command_buffer.take s.command_buffer_pos
  ({ s with command_buffer_pos := 0 }, k line)

/-- The body of the loop of `barometer_dev_fops_write` (lines 95-100) for one byte. -/
def write_byte_with {ε : Type} (k : List Nat → List ε) (s : State) (data : Nat) :
    State × List ε :=
  let s1 : State :=
    { command_buffer := s.command_buffer.set s.command_buffer_pos data
      command_buffer_pos := (s.command_buffer_pos + 1) % command_buffer_length }
  if data = LF then command_buffer_parse_with k s1 else (s1, [])

/-- The loop of `barometer_dev_fops_write` (lines 94-101) over the bytes of `buff`. -/
def write_loop_with {ε : Type} (k : List Nat → List ε) : State → List Nat → State × List ε
  | s, [] => (s, [])
  | s, data :: rest =>
    let r1 := write_byte_with k s data
    let r2 := write_loop_with k r1.1 rest
    (r2.1, r1.2 ++ r2.2)

/-- The function `barometer_dev_fops_write` (lines 87-104). `user_buffer` lists the `count`
bytes offered by the caller and `not_copied` is what `copy_from_user` returns (the number of
trailing bytes it could not copy, 0 on success). `count` is first cut to the size of `buff`
(line 91), then reduced by `not_copied` (line 92); the loop runs over the bytes copied.
Yields the new state, the trace, and the returned count. -/
def barometer_dev_fops_write_with {ε : Type} (k : List Nat → List ε) (s : State)
    (user_buffer : List Nat) (not_copied : Nat) : State × List ε × Nat :=
  let count := min user_buffer.length buff_size
  let count := count - not_copied
  let r := write_loop_with k s (user_buffer.take count)
  (r.1, r.2, count)

/-- A sequence of calls of the write entry point, each a pair of the offered bytes and the
result of `copy_from_user`; the traces are concatenated in order. -/
def write_calls_with {ε : Type} (k : List Nat → List ε) :
    State → List (List Nat × Nat) → State × List ε
  | s, [] => (s, [])
  | s, c :: cs =>
    let r1 := barometer_dev_fops_write_with k s c.1 c.2
    let r2 := write_calls_with k r1.1 cs
    (r2.1, r1.2.1 ++ r2.2)

/-- The function `command_buffer_parse` (lines 78-84). -/
def command_buffer_parse (s : State) : State × List Event :=
  command_buffer_parse_with command_buffer_parse_line s

/-- The function `barometer_dev_fops_write` (lines 87-104) with its real callee. -/
def barometer_dev_fops_write (s : State) (user_buffer : List Nat) (not_copied : Nat) :
    State × List Event × Nat :=
  barometer_dev_fops_write_with command_buffer_parse_line s user_buffer not_copied

/-- A sequence of write calls with the real callee. -/
def write_calls (s : State) (calls : List (List Nat × Nat)) : State × List Event :=
  write_calls_with command_buffer_parse_line s calls

/-- The lines handed to `command_buffer_parse_line` (line 83) during a sequence of calls. -/
def lines_handed (s : State) (calls : List (List Nat × Nat)) : List (List Nat) :=
  (write_calls_with (fun line => [line]) s calls).2

/-- A call offering `bs` whose copy from the caller succeeds. -/
def ok_call (bs : List Nat) : List Nat × Nat := (bs, 0)

/-- The bytes `bs` offered one byte per call, every copy succeeding. -/
def bytewise (bs : List Nat) : List (List Nat × Nat) :=
  bs.map (fun b => ok_call [b])


/-- The bytes that a sequence of calls ingests: per call, the bytes of `user_buffer` that
reach the loop of lines 94-101 (the first `min count 10 - not_copied` of them), in order. -/
def ingested (calls : List (List Nat × Nat)) : List Nat :=
  calls.flatMap (fun c => c.1.take (min c.1.length buff_size - c.2))

/-- Two states with the same cursor and array size whose arrays hold the same bytes below
the cursor (the bytes above it may differ). -/
def State.agree (s t : State) : Prop :=
  s.command_buffer_pos = t.command_buffer_pos ∧
    s.command_buffer.length = t.command_buffer.length ∧
    ∀ i, i < s.command_buffer_pos → s.command_buffer[i]? = t.command_buffer[i]?

/-- The three reports that the specification counts per line: `LineParsed` (the entry
report of line 50), `UnknownCommand` (line 56) and `MalformedLine` (line 67). -/
def Event.is_line_report (e : Event) : Bool :=
  e.is_dispatch || e.is_unknown || e.is_invalid

/-- The report that opens the trace of a line: the entry report of line 50 or the
"invalid line" report of line 67. -/
def Event.is_line_start (e : Event) : Bool :=
  e.is_dispatch || e.is_invalid

/-- The report that closes the trace of a line: a run of the handler, the "unknown command"
report or the "invalid line" report. -/
def Event.is_line_outcome (e : Event) : Bool :=
  e.is_handler || e.is_unknown || e.is_invalid

/-! ## Sample inputs -/

/-- The bytes of "PRESS:1013" followed by a line feed (11 bytes). -/
def sample_press_1013 : List Nat := [80, 82, 69, 83, 83, 58, 49, 48, 49, 51, 10]

/-- The bytes of "PRE". -/
def sample_pre : List Nat := [80, 82, 69]

/-- The bytes of "SS:7" followed by a line feed. -/
def sample_ss_7 : List Nat := [83, 83, 58, 55, 10]

/-- The bytes of "FOO:bar" followed by a line feed (8 bytes). -/
def sample_foo_bar : List Nat := [70, 79, 79, 58, 98, 97, 114, 10]

/-- Ten bytes "x". -/
def sample_x10 : List Nat := List.replicate 10 120

/-- Five bytes "x" followed by a line feed. -/
def sample_x5_LF : List Nat := List.replicate 5 120 ++ [10]

/-- The bytes of "PRESS:1234567890123" (19 bytes, no terminator). -/
def sample_press_19 : List Nat :=
  [80, 82, 69, 83, 83, 58, 49, 50, 51, 52, 53, 54, 55, 56, 57, 48, 49, 50, 51]

/-- The calls offering "PRESS:1234567890123" and a line feed as 10 + 10 bytes. -/
def sample_press_19_calls : List (List Nat × Nat) :=
  [ok_call [80, 82, 69, 83, 83, 58, 49, 50, 51, 52],
   ok_call [53, 54, 55, 56, 57, 48, 49, 50, 51, 10]]

/-- The bytes of "nodelim" followed by a line feed. -/
def sample_nodelim : List Nat := [110, 111, 100, 101, 108, 105, 109, 10]

/-! ## The write loop: general facts -/

theorem write_loop_with_append {ε : Type} (k : List Nat → List ε) (s : State)
    (a b : List Nat) :
    write_loop_with k s (a ++ b) =
      ((write_loop_with k (write_loop_with k s a).1 b).1,
       (write_loop_with k s a).2 ++ (write_loop_with k (write_loop_with k s a).1 b).2) := by
  induction a generalizing s with
  | nil => simp [write_loop_with]
  | cons x xs ih => simp [write_loop_with, ih, List.append_assoc]

theorem fops_write_with_ok {ε : Type} (k : List Nat → List ε) (s : State) (bs : List Nat)
    (h : bs.length ≤ buff_size) :
    barometer_dev_fops_write_with k s bs 0 =
      ((write_loop_with k s bs).1, (write_loop_with k s bs).2, bs.length) := by
  simp [barometer_dev_fops_write_with, Nat.min_eq_left h, List.take_length]

theorem write_calls_with_ok {ε : Type} (k : List Nat → List ε) (s : State)
    (cs : List (List Nat)) (h : ∀ c ∈ cs, c.length ≤ buff_size) :
    write_calls_with k s (cs.map ok_call) = write_loop_with k s cs.flatten := by
  induction cs generalizing s with
  | nil => simp [write_calls_with, write_loop_with]
  | cons c cs ih =>
    have hc : c.length ≤ buff_size := h c (List.mem_cons_self _ _)
    have hcs : ∀ d ∈ cs, d.length ≤ buff_size := fun d hd => h d (List.mem_cons_of_mem _ hd)
    simp only [List.map_cons, write_calls_with, ok_call, List.flatten_cons]
    rw [fops_write_with_ok k s c hc]
    have := ih (write_loop_with k s c).1 hcs
    simp only [ok_call] at this
    rw [this, write_loop_with_append]

theorem write_calls_with_bytewise {ε : Type} (k : List Nat → List ε) (s : State)
    (bs : List Nat) :
    write_calls_with k s (bytewise bs) = write_loop_with k s bs := by
  induction bs generalizing s with
  | nil => simp [bytewise, write_calls_with, write_loop_with]
  | cons b bs ih =>
    have := ih (write_byte_with k s b).1
    simp only [bytewise, ok_call] at this
    simp [bytewise, write_calls_with, ok_call, barometer_dev_fops_write_with, buff_size,
      write_loop_with, this]


/-! ## C strings -/

theorem cstr_of_no_nul (l : List Nat) (h : 0 ∉ l) : cstr l = l := by
  induction l with
  | nil => rfl
  | cons c cs ih =>
    have hc : c ≠ 0 := fun e => h (e ▸ List.mem_cons_self _ _)
    have hcs : 0 ∉ cs := fun m => h (List.mem_cons_of_mem _ m)
    simp [cstr, hc, ih hcs]

theorem cstr_no_nul (l : List Nat) : 0 ∉ cstr l := by
  induction l with
  | nil => simp [cstr]
  | cons c cs ih =>
    by_cases hc : c = 0
    · simp [cstr, hc]
    · simp only [cstr, hc, if_false, List.mem_cons, not_or]
      exact ⟨fun e => hc e.symm, ih⟩

theorem cstr_cstr (l : List Nat) : cstr (cstr l) = cstr l :=
  cstr_of_no_nul _ (cstr_no_nul l)

theorem strcmp_eq_zero_iff (a b : List Nat) : strcmp a b = 0 ↔ cstr a = cstr b := by
  induction a generalizing b with
  | nil =>
    cases b with
    | nil => simp [strcmp, cstr]
    | cons c2 ct =>
      by_cases h : c2 = 0
      · simp [strcmp, cstr, h]
      · simp [strcmp, cstr, h]
  | cons c1 cs ih =>
    cases b with
    | nil =>
      by_cases h : c1 = 0
      · simp [strcmp, cstr, h]
      · simp [strcmp, cstr, h]
    | cons c2 ct =>
      by_cases h : c1 = c2
      · subst h
        by_cases h0 : c1 = 0
        · simp [strcmp, cstr, h0]
        · simp [strcmp, cstr, h0, ih ct]
      · have hl : cstr (c1 :: cs) ≠ cstr (c2 :: ct) := by
          by_cases h1 : c1 = 0
          · have h2 : c2 ≠ 0 := fun e => h (h1.trans e.symm)
            simp [cstr, h1, h2]
          · by_cases h2 : c2 = 0
            · simp [cstr, h1, h2]
            · simp [cstr, h1, h2, h]
        by_cases hlt : c1 < c2
        · simp [strcmp, h, hlt, hl]
        · simp [strcmp, h, hlt, hl]

theorem strstr_from_delim_none (l : List Nat) (h : 58 ∉ l) : strstr_from [58] l = none := by
  induction l with
  | nil => simp [strstr_from]
  | cons c cs ih =>
    have hc : ¬ (58 = c) := fun e => h (e ▸ List.mem_cons_self _ _)
    have hcs : 58 ∉ cs := fun m => h (List.mem_cons_of_mem _ m)
    simp [strstr_from, starts_with, hc, ih hcs]

theorem strstr_from_delim_some (K V : List Nat) (h : 58 ∉ K) :
    strstr_from [58] (K ++ 58 :: V) = some K.length := by
  induction K with
  | nil => simp [strstr_from, starts_with]
  | cons c cs ih =>
    have hc : ¬ (58 = c) := fun e => h (e ▸ List.mem_cons_self _ _)
    have hcs : 58 ∉ cs := fun m => h (List.mem_cons_of_mem _ m)
    simp [strstr_from, starts_with, hc, ih hcs]

theorem strstr_delim_some (K V : List Nat) (hK : 58 ∉ K) (hK0 : 0 ∉ K) (hV0 : 0 ∉ V) :
    strstr (K ++ 58 :: V) CMD_DELIMITER = some K.length := by
  have h0 : 0 ∉ K ++ 58 :: V := by
    simp only [List.mem_append, List.mem_cons, not_or]
    exact ⟨hK0, by decide, hV0⟩
  have hd : cstr CMD_DELIMITER = [58] := by decide
  rw [strstr, cstr_of_no_nul _ h0, hd]
  exact strstr_from_delim_some K V hK

theorem strstr_delim_none (line : List Nat) (h : 58 ∉ cstr line) :
    strstr line CMD_DELIMITER = none := by
  have hd : cstr CMD_DELIMITER = [58] := by decide
  rw [strstr, hd]
  exact strstr_from_delim_none _ h

theorem parse_command_of_pressure (key value : List Nat) (h : cstr key = CMD_PRESSURE) :
    command_buffer_parse_command key value =
      [Event.parse_command CMD_PRESSURE (cstr value), Event.command_pressure (cstr value)] := by
  have hs : strcmp key CMD_PRESSURE = 0 := (strcmp_eq_zero_iff _ _).2 (by rw [h]; decide)
  simp [command_buffer_parse_command, hs, command_pressure, h]

theorem parse_command_of_unknown (key value : List Nat) (h : cstr key ≠ CMD_PRESSURE) :
    command_buffer_parse_command key value =
      [Event.parse_command (cstr key) (cstr value), Event.unknown_command (cstr key)] := by
  have hs : ¬ strcmp key CMD_PRESSURE = 0 := by
    intro e
    apply h
    have := (strcmp_eq_zero_iff _ _).1 e
    rw [this]; decide
  simp [command_buffer_parse_command, hs]

theorem parse_line_split (K V : List Nat) (hK : 58 ∉ K) (hK0 : 0 ∉ K) (hV0 : 0 ∉ V) :
    command_buffer_parse_line (K ++ 58 :: V) = command_buffer_parse_command K V := by
  simp [command_buffer_parse_line, strstr_delim_some K V hK hK0 hV0, cstr_of_no_nul V hV0]


/-! ## The accumulator: invariant and framing -/

theorem write_byte_with_wf {ε : Type} (k : List Nat → List ε) (s : State) (b : Nat)
    (h : s.wf) : (write_byte_with k s b).1.wf := by
  obtain ⟨h1, _⟩ := h
  unfold write_byte_with command_buffer_parse_with State.wf
  by_cases hb : b = LF
  · simp [hb, h1, command_buffer_length]
  · simp only [hb, if_false, List.length_set]
    exact ⟨h1, Nat.mod_lt _ (by decide)⟩

theorem write_loop_with_wf {ε : Type} (k : List Nat → List ε) (s : State) (bs : List Nat)
    (h : s.wf) : (write_loop_with k s bs).1.wf := by
  induction bs generalizing s with
  | nil => simpa [write_loop_with] using h
  | cons b bs ih =>
    simp only [write_loop_with]
    exact ih _ (write_byte_with_wf k s b h)

theorem fops_write_with_wf {ε : Type} (k : List Nat → List ε) (s : State) (bs : List Nat)
    (n : Nat) (h : s.wf) : (barometer_dev_fops_write_with k s bs n).1.wf := by
  simp only [barometer_dev_fops_write_with]
  exact write_loop_with_wf k s _ h

theorem write_calls_with_wf {ε : Type} (k : List Nat → List ε) (s : State)
    (calls : List (List Nat × Nat)) (h : s.wf) : (write_calls_with k s calls).1.wf := by
  induction calls generalizing s with
  | nil => simpa [write_calls_with] using h
  | cons c cs ih =>
    simp only [write_calls_with]
    exact ih _ (fops_write_with_wf k s c.1 c.2 h)

/-- Bytes other than the terminator only move the cursor: no report, cursor advanced modulo
the buffer length. -/
theorem write_loop_with_no_LF {ε : Type} (k : List Nat → List ε) (s : State) (w : List Nat)
    (hw : LF ∉ w) :
    (write_loop_with k s w).2 = [] ∧
    (write_loop_with k s w).1.command_buffer_pos =
      (if w = [] then s.command_buffer_pos
       else (s.command_buffer_pos + w.length) % command_buffer_length) ∧
    (write_loop_with k s w).1.command_buffer.length = s.command_buffer.length := by
  induction w generalizing s with
  | nil => simp [write_loop_with]
  | cons b bs ih =>
    have hb : b ≠ LF := fun e => hw (e ▸ List.mem_cons_self _ _)
    have hbs : LF ∉ bs := fun m => hw (List.mem_cons_of_mem _ m)
    obtain ⟨e1, e2, e3⟩ := ih (write_byte_with k s b).1 hbs
    have hstep : write_byte_with k s b =
        ({ command_buffer := s.command_buffer.set s.command_buffer_pos b
           command_buffer_pos := (s.command_buffer_pos + 1) % command_buffer_length }, []) := by
      simp [write_byte_with, hb]
    rw [hstep] at e1 e2 e3
    simp only [List.length_set] at e3
    refine ⟨?_, ?_, ?_⟩
    · simp only [write_loop_with, hstep, e1, List.append_nil]
    · simp only [write_loop_with, hstep, e2, reduceCtorEq, if_false]
      by_cases hnil : bs = []
      · simp [hnil]
      · simp only [hnil, if_false, command_buffer_length, List.length_cons]
        omega
    · simp only [write_loop_with, hstep, e3]

/-- Bytes other than the terminator written into a gap of the buffer that they fit in:
the buffer holds them in order at the old cursor. -/
theorem write_loop_with_fill {ε : Type} (k : List Nat → List ε) (w : List Nat)
    (hw : LF ∉ w) (pre mid post : List Nat) (hmid : mid.length = w.length)
    (hlen : pre.length + w.length + post.length = command_buffer_length)
    (hpre : pre.length < command_buffer_length) :
    write_loop_with k { command_buffer := pre ++ mid ++ post,
                        command_buffer_pos := pre.length } w =
      ({ command_buffer := pre ++ w ++ post,
         command_buffer_pos := (pre.length + w.length) % command_buffer_length }, []) := by
  induction w generalizing pre mid with
  | nil =>
    have : mid = [] := List.length_eq_zero.mp hmid
    subst this
    simp [write_loop_with, Nat.mod_eq_of_lt hpre]
  | cons b bs ih =>
    have hb : b ≠ LF := fun e => hw (e ▸ List.mem_cons_self _ _)
    have hbs : LF ∉ bs := fun m => hw (List.mem_cons_of_mem _ m)
    cases mid with
    | nil => simp at hmid
    | cons m mid =>
      have hmid2 : mid.length = bs.length := by simpa using hmid
      have hset : (pre ++ m :: mid ++ post).set pre.length b = (pre ++ [b]) ++ mid ++ post := by
        simp [List.set_append]
      have hstep : write_byte_with k
          { command_buffer := pre ++ m :: mid ++ post, command_buffer_pos := pre.length } b =
          ({ command_buffer := (pre ++ [b]) ++ mid ++ post
             command_buffer_pos := (pre.length + 1) % command_buffer_length }, []) := by
        simp only [write_byte_with, hb, if_false, hset]
      simp only [write_loop_with, hstep]
      cases bs with
      | nil =>
        have : mid = [] := List.length_eq_zero.mp hmid2
        subst this
        simp [write_loop_with]
      | cons b2 bs2 =>
        have hlt : pre.length + 1 < command_buffer_length := by
          simp only [List.length_cons] at hlen; omega
        have := ih hbs (pre ++ [b]) mid hmid2
          (by simp only [List.length_append, List.length_cons, List.length_nil] at hlen ⊢; omega)
          (by simpa using hlt)
        simp only [List.length_append, List.length_cons, List.length_nil, Nat.zero_add]
          at this
        rw [Nat.mod_eq_of_lt hlt, this]
        simp [Nat.add_assoc, Nat.add_comm 1]


/-- The terminator byte, written at cursor `pre.length`, is stored and the line is cut
at the advanced cursor. -/
theorem write_byte_with_LF {ε : Type} (k : List Nat → List ε) (pre post : List Nat)
    (m : Nat) :
    write_byte_with k
        { command_buffer := pre ++ m :: post, command_buffer_pos := pre.length } LF =
      ({ command_buffer := pre ++ LF :: post, command_buffer_pos := 0 },
       k ((pre ++ [LF]).take ((pre.length + 1) % command_buffer_length))) := by
  have hset : (pre ++ m :: post).set pre.length LF = pre ++ LF :: post := by
    simp [List.set_append]
  have hle : (pre.length + 1) % command_buffer_length ≤ (pre ++ [LF]).length := by
    simp only [List.length_append, List.length_cons, List.length_nil]
    exact Nat.mod_le _ _
  have htake : (pre ++ LF :: post).take ((pre.length + 1) % command_buffer_length) =
      (pre ++ [LF]).take ((pre.length + 1) % command_buffer_length) := by
    have : pre ++ LF :: post = (pre ++ [LF]) ++ post := by simp
    rw [this, List.take_append_of_le_length hle]
  simp only [write_byte_with, if_true, command_buffer_parse_with, hset, htake]

/-- Framing of one line that fits before the end of the buffer: fewer than 20 bytes other
than the terminator, written from cursor 0 and followed by the terminator. -/
theorem write_loop_with_line {ε : Type} (k : List Nat → List ε) (s : State) (w : List Nat)
    (hpos : s.command_buffer_pos = 0) (hlen : s.command_buffer.length = command_buffer_length)
    (hw : LF ∉ w) (hwl : w.length < command_buffer_length) :
    write_loop_with k s (w ++ [LF]) =
      ({ command_buffer := w ++ LF :: s.command_buffer.drop (w.length + 1),
         command_buffer_pos := 0 },
       k ((w ++ [LF]).take ((w.length + 1) % command_buffer_length))) := by
  obtain ⟨buf, pos⟩ := s
  simp only at hpos hlen
  subst hpos
  have hsplit : buf = [] ++ buf.take w.length ++ buf.drop w.length := by simp
  have htl : (buf.take w.length).length = w.length := by
    rw [List.length_take]; omega
  have hfill := write_loop_with_fill k w hw [] (buf.take w.length) (buf.drop w.length) htl
    (by simp only [List.length_nil, List.length_drop]; omega)
    (by simp [command_buffer_length])
  simp only [List.length_nil, Nat.zero_add, Nat.mod_eq_of_lt hwl, List.nil_append,
    List.take_append_drop] at hfill
  obtain ⟨m, post, hpost⟩ : ∃ m post, buf.drop w.length = m :: post := by
    cases h : buf.drop w.length with
    | nil =>
      have := congrArg List.length h
      simp only [List.length_drop, List.length_nil] at this
      omega
    | cons m post => exact ⟨m, post, rfl⟩
  have hpost2 : buf.drop (w.length + 1) = post := by
    have : buf.drop (w.length + 1) = (buf.drop w.length).drop 1 := by
      rw [List.drop_drop]
    rw [this, hpost]; rfl
  rw [write_loop_with_append, hfill, hpost]
  simp only [write_loop_with, write_byte_with_LF, List.append_nil, List.nil_append, hpost2]


/-- Framing of one line of any length written from cursor 0: the callee receives the last
`(n + 1) % 20` bytes of what was written, terminator included. -/
theorem write_loop_with_wrap {ε : Type} (k : List Nat → List ε) (s : State) (w : List Nat)
    (hpos : s.command_buffer_pos = 0) (hlen : s.command_buffer.length = command_buffer_length)
    (hw : LF ∉ w) :
    (write_loop_with k s (w ++ [LF])).2 =
        k ((w ++ [LF]).drop (w.length + 1 - (w.length + 1) % command_buffer_length)) ∧
      (write_loop_with k s (w ++ [LF])).1.command_buffer_pos = 0 ∧
      (write_loop_with k s (w ++ [LF])).1.command_buffer.length = command_buffer_length := by
  have hq : w.length / 20 * 20 ≤ w.length := Nat.div_mul_le_self _ _
  have hw1 : LF ∉ w.take (w.length / 20 * 20) := fun m => hw (List.mem_of_mem_take m)
  have hw2 : LF ∉ w.drop (w.length / 20 * 20) := fun m => hw (List.mem_of_mem_drop m)
  have hl1 : (w.take (w.length / 20 * 20)).length = w.length / 20 * 20 := by
    rw [List.length_take]; omega
  have hl2 : (w.drop (w.length / 20 * 20)).length = w.length % 20 := by
    rw [List.length_drop]; omega
  obtain ⟨e1, e2, e3⟩ := write_loop_with_no_LF k s _ hw1
  have hpos1 : (write_loop_with k s (w.take (w.length / 20 * 20))).1.command_buffer_pos = 0 := by
    rw [e2]
    split
    · exact hpos
    · rw [hpos, hl1]; simp [command_buffer_length]
  have hline := write_loop_with_line k _ (w.drop (w.length / 20 * 20)) hpos1 (e3.trans hlen) hw2
    (by rw [hl2]; exact Nat.mod_lt _ (by decide))
  have hsplit : w ++ [LF] =
      w.take (w.length / 20 * 20) ++ (w.drop (w.length / 20 * 20) ++ [LF]) := by
    rw [← List.append_assoc, List.take_append_drop]
  have hres : write_loop_with k s (w ++ [LF]) =
      ((write_loop_with k (write_loop_with k s (w.take (w.length / 20 * 20))).1
          (w.drop (w.length / 20 * 20) ++ [LF])).1,
       (write_loop_with k (write_loop_with k s (w.take (w.length / 20 * 20))).1
          (w.drop (w.length / 20 * 20) ++ [LF])).2) := by
    conv_lhs => rw [hsplit, write_loop_with_append, e1]
    simp
  rw [hres, hline]
  refine ⟨?_, rfl, ?_⟩
  · simp only [command_buffer_length, hl2]
    by_cases hr : w.length % 20 = 19
    · have h0 : (w.length % 20 + 1) % 20 = 0 := by omega
      have h1 : (w.length + 1) % 20 = 0 := by omega
      rw [h0, h1]
      simp
    · have h0 : (w.length % 20 + 1) % 20 = w.length % 20 + 1 := by omega
      have h1 : w.length + 1 - (w.length + 1) % 20 = w.length / 20 * 20 := by omega
      rw [h0, h1]
      have hfull : (w.drop (w.length / 20 * 20) ++ [LF]).length = w.length % 20 + 1 := by
        simp [hl2]
      rw [← hfull, List.take_length]
      conv_rhs => rw [hsplit]
      rw [List.drop_append_of_le_length (by omega)]
      have : (w.take (w.length / 20 * 20)).drop (w.length / 20 * 20) = [] := by
        apply List.drop_eq_nil_of_le; omega
      rw [this]; rfl
  · simp only [List.length_append, List.length_cons, List.length_drop, List.length_nil,
      command_buffer_length] at e3 hlen ⊢
    rw [e3, hlen]
    omega


/-! ## Chunking (C1) -/

/-- C1, as stated, fails: offered in one call, the 11 bytes of "PRESS:1013\n" are cut to the
first 10 by the entry point, so the terminator is never seen and no report is made, while
the same bytes offered one per call yield the reports of a full line. -/
theorem chunking_invariance_fails_beyond_cap :
    write_calls State.init (bytewise sample_press_1013) ≠
        ((barometer_dev_fops_write State.init sample_press_1013 0).1,
         (barometer_dev_fops_write State.init sample_press_1013 0).2.1) ∧
      (barometer_dev_fops_write State.init sample_press_1013 0).2.1 = [] ∧
      (write_calls State.init (bytewise sample_press_1013)).2 =
        [Event.parse_command CMD_PRESSURE [49, 48, 49, 51, 10],
         Event.command_pressure [49, 48, 49, 51, 10]] := by
  decide

/-- C1, amended: for every byte sequence of at most 10 bytes (the size of the per-call
buffer) and every starting state, offering the bytes one per call yields the same ordered
trace and the same final state as offering them in a single call. -/
theorem chunking_invariance_up_to_cap (s : State) (bs : List Nat)
    (h : bs.length ≤ 10) :
    write_calls s (bytewise bs) =
      ((barometer_dev_fops_write s bs 0).1, (barometer_dev_fops_write s bs 0).2.1) := by
  unfold write_calls barometer_dev_fops_write
  rw [write_calls_with_bytewise, fops_write_with_ok _ _ _ h]

/-- Instance of `chunking_invariance_up_to_cap` at "FOO:bar\n" from the initial state. -/
theorem chunking_invariance_up_to_cap_witness :
    sample_foo_bar.length ≤ 10 ∧
      write_calls State.init (bytewise sample_foo_bar) =
        ((barometer_dev_fops_write State.init sample_foo_bar 0).1,
         (barometer_dev_fops_write State.init sample_foo_bar 0).2.1) :=
  ⟨by decide, chunking_invariance_up_to_cap State.init sample_foo_bar (by decide)⟩


/-! ## Command dispatcher (C2 - C5) -/

/-- C2: for every line `K ++ ":" ++ V` where `K` has no ':' (the line has no NUL and key and
value fit the 64-byte locals), `command_buffer_parse_line` behaves as exactly one call of
`command_buffer_parse_command` with key `K` and value `V`, the value being everything
after the first ':' unmodified (further ':' included, possibly empty). -/
theorem parse_line_dispatches_key_value (K V : List Nat)
    (hK : 58 ∉ K) (hK0 : 0 ∉ K) (hV0 : 0 ∉ V) (_hKfit : K.length < 64)
    (_hVfit : V.length < 64) :
    command_buffer_parse_line (K ++ 58 :: V) = command_buffer_parse_command K V ∧
      (command_buffer_parse_line (K ++ 58 :: V)).filter Event.is_dispatch =
        [Event.parse_command K V] := by
  rw [parse_line_split K V hK hK0 hV0]
  refine ⟨rfl, ?_⟩
  by_cases h : cstr K = CMD_PRESSURE
  · rw [parse_command_of_pressure K V h, ← h, cstr_of_no_nul K hK0, cstr_of_no_nul V hV0]
    simp [Event.is_dispatch]
  · rw [parse_command_of_unknown K V h, cstr_of_no_nul K hK0, cstr_of_no_nul V hV0]
    simp [Event.is_dispatch]

/-- Instance of `parse_line_dispatches_key_value` at the line "A:b::c". -/
theorem parse_line_dispatches_key_value_witness :
    (58 ∉ [65] ∧ 0 ∉ [65] ∧ 0 ∉ [98, 58, 58, 99] ∧ [65].length < 64 ∧
        [98, 58, 58, 99].length < 64) ∧
      (command_buffer_parse_line ([65] ++ 58 :: [98, 58, 58, 99]) =
          command_buffer_parse_command [65] [98, 58, 58, 99] ∧
        (command_buffer_parse_line ([65] ++ 58 :: [98, 58, 58, 99])).filter Event.is_dispatch =
          [Event.parse_command [65] [98, 58, 58, 99]]) :=
  ⟨by decide,
   parse_line_dispatches_key_value [65] [98, 58, 58, 99] (by decide) (by decide) (by decide)
     (by decide) (by decide)⟩

/-- C3: for every line whose string contains no ':', `command_buffer_parse_line` makes
exactly one report, the "invalid line" report carrying that line; it does not enter
`command_buffer_parse_command` and runs no handler. -/
theorem parse_line_without_delimiter (line : List Nat) (h : 58 ∉ cstr line) :
    command_buffer_parse_line line = [Event.invalid_line (cstr line)] ∧
      (command_buffer_parse_line line).filter Event.is_dispatch = [] ∧
      (command_buffer_parse_line line).filter Event.is_handler = [] ∧
      (0 ∉ line → cstr line = line) := by
  have e : command_buffer_parse_line line = [Event.invalid_line (cstr line)] := by
    simp [command_buffer_parse_line, strstr_delim_none line h]
  rw [e]
  exact ⟨rfl, by simp [Event.is_dispatch], by simp [Event.is_handler], cstr_of_no_nul line⟩

/-- Instance of `parse_line_without_delimiter` at the line "nodelim". -/
theorem parse_line_without_delimiter_witness :
    58 ∉ cstr [110, 111, 100, 101, 108, 105, 109] ∧
      command_buffer_parse_line [110, 111, 100, 101, 108, 105, 109] =
        [Event.invalid_line [110, 111, 100, 101, 108, 105, 109]] :=
  ⟨by decide, (parse_line_without_delimiter [110, 111, 100, 101, 108, 105, 109] (by decide)).1⟩

/-- C4: for every line `K:V` whose key `K` is not "PRESS" (key and value fitting the
64-byte locals of `command_buffer_parse_line`), the dispatch makes its entry report for `K`
and `V` followed by exactly one "unknown command" report, which carries `K` only, and the
pressure handler does not run. -/
theorem unknown_key_reported (K V : List Nat)
    (hK : 58 ∉ K) (hK0 : 0 ∉ K) (hV0 : 0 ∉ V) (hne : K ≠ CMD_PRESSURE)
    (_hKfit : K.length < 64) (_hVfit : V.length < 64) :
    command_buffer_parse_command K V =
        [Event.parse_command K V, Event.unknown_command K] ∧
      command_buffer_parse_line (K ++ 58 :: V) =
        [Event.parse_command K V, Event.unknown_command K] ∧
      (command_buffer_parse_command K V).filter Event.is_unknown =
        [Event.unknown_command K] ∧
      (command_buffer_parse_command K V).filter Event.is_handler = [] := by
  have hc : cstr K ≠ CMD_PRESSURE := by rwa [cstr_of_no_nul K hK0]
  have e := parse_command_of_unknown K V hc
  rw [cstr_of_no_nul K hK0, cstr_of_no_nul V hV0] at e
  rw [parse_line_split K V hK hK0 hV0, e]
  exact ⟨rfl, rfl, by simp [Event.is_unknown], by simp [Event.is_handler]⟩

/-- Instance of `unknown_key_reported` at the line "FOO:bar". -/
theorem unknown_key_reported_witness :
    (58 ∉ [70, 79, 79] ∧ 0 ∉ [70, 79, 79] ∧ 0 ∉ [98, 97, 114] ∧ [70, 79, 79] ≠ CMD_PRESSURE ∧
        [70, 79, 79].length < 64 ∧ [98, 97, 114].length < 64) ∧
      command_buffer_parse_line ([70, 79, 79] ++ 58 :: [98, 97, 114]) =
        [Event.parse_command [70, 79, 79] [98, 97, 114], Event.unknown_command [70, 79, 79]] :=
  ⟨by decide,
   (unknown_key_reported [70, 79, 79] [98, 97, 114] (by decide) (by decide) (by decide)
     (by decide) (by decide) (by decide)).2.1⟩

/-- C5: for every key and value, `command_buffer_parse_command` runs the pressure handler
if and only if the key string equals "PRESS" byte for byte, and then it runs it exactly
once, with exactly the given value string. -/
theorem pressure_handler_iff_key (key value : List Nat) :
    ((∃ v, Event.command_pressure v ∈ command_buffer_parse_command key value) ↔
        cstr key = CMD_PRESSURE) ∧
      (command_buffer_parse_command key value).filter Event.is_handler =
        (if cstr key = CMD_PRESSURE then [Event.command_pressure (cstr value)] else []) := by
  by_cases h : cstr key = CMD_PRESSURE
  · rw [parse_command_of_pressure key value h]
    simp [h, Event.is_handler]
  · rw [parse_command_of_unknown key value h]
    simp [h, Event.is_handler]


/-! ## End to end and framing (C6 - C8) -/

/-- C6, as stated, fails twice over. Offered in one call, "PRESS:1013\n" (11 bytes) is cut
to 10 bytes and nothing is reported. Offered as "PRE" then "SS:7\n", the handler runs once,
but with the value "7\n" (terminator included), not "7". -/
theorem press_end_to_end_fails :
    (barometer_dev_fops_write State.init sample_press_1013 0).2.1 ≠
        [Event.parse_command CMD_PRESSURE [49, 48, 49, 51],
         Event.command_pressure [49, 48, 49, 51]] ∧
      (write_calls State.init [ok_call sample_pre, ok_call sample_ss_7]).2 ≠
        [Event.parse_command CMD_PRESSURE [55], Event.command_pressure [55]] ∧
      (barometer_dev_fops_write State.init sample_press_1013 0).2.1 = [] ∧
      (write_calls State.init [ok_call sample_pre, ok_call sample_ss_7]).2 =
        [Event.parse_command CMD_PRESSURE [55, 10], Event.command_pressure [55, 10]] := by
  decide

/-- C6, amended: for every value `V` without line feed, ':' or NUL such that
"PRESS:" ++ V ++ "\n" is at most 19 bytes long, offering that input from the initial state
in any number of calls of at most 10 bytes each yields exactly the entry report for key
"PRESS" and one run of the pressure handler, both with the value `V` followed by the line
feed; the cursor is back at 0. -/
theorem press_end_to_end (V : List Nat) (cs : List (List Nat))
    (hLF : LF ∉ V) (h0 : 0 ∉ V) (_hcolon : 58 ∉ V)
    (hlen : (CMD_PRESSURE ++ 58 :: V ++ [LF]).length ≤ 19)
    (hcs : ∀ c ∈ cs, c.length ≤ 10)
    (hjoin : cs.flatten = CMD_PRESSURE ++ 58 :: V ++ [LF]) :
    (write_calls State.init (cs.map ok_call)).2 =
        [Event.parse_command CMD_PRESSURE (V ++ [LF]),
         Event.command_pressure (V ++ [LF])] ∧
      (write_calls State.init (cs.map ok_call)).1.command_buffer_pos = 0 := by
  have hw : LF ∉ CMD_PRESSURE ++ 58 :: V := by
    simp only [List.mem_append, List.mem_cons, not_or]
    exact ⟨by decide, by decide, hLF⟩
  have hwl : (CMD_PRESSURE ++ 58 :: V).length + 1 ≤ 19 := by
    simp only [List.length_append, List.length_cons, List.length_nil] at hlen ⊢
    omega
  have hV0 : 0 ∉ V ++ [LF] := by
    simp only [List.mem_append, List.mem_singleton, not_or]
    exact ⟨h0, by decide⟩
  have hline := write_loop_with_line command_buffer_parse_line State.init
    (CMD_PRESSURE ++ 58 :: V) rfl rfl hw (by simp only [command_buffer_length]; omega)
  have hmod : ((CMD_PRESSURE ++ 58 :: V).length + 1) % command_buffer_length =
      (CMD_PRESSURE ++ 58 :: V ++ [LF]).length := by
    simp only [command_buffer_length, List.length_append, List.length_cons, List.length_nil]
      at hwl ⊢
    omega
  have hparse : command_buffer_parse_line (CMD_PRESSURE ++ 58 :: V ++ [LF]) =
      [Event.parse_command CMD_PRESSURE (V ++ [LF]), Event.command_pressure (V ++ [LF])] := by
    have e : CMD_PRESSURE ++ 58 :: V ++ [LF] = CMD_PRESSURE ++ 58 :: (V ++ [LF]) := by simp
    rw [e, parse_line_split CMD_PRESSURE (V ++ [LF]) (by decide) (by decide) hV0,
      parse_command_of_pressure _ _ (by decide), cstr_of_no_nul _ hV0]
  unfold write_calls
  rw [write_calls_with_ok _ _ _ hcs, hjoin, hline, hmod, List.take_length, hparse]
  exact ⟨rfl, rfl⟩

/-- Instance of `press_end_to_end` at the value "7", offered as "PRE" then "SS:7\n". -/
theorem press_end_to_end_witness :
    (LF ∉ [55] ∧ 0 ∉ [55] ∧ 58 ∉ [55] ∧ (CMD_PRESSURE ++ 58 :: [55] ++ [LF]).length ≤ 19 ∧
        (∀ c ∈ [sample_pre, sample_ss_7], c.length ≤ 10) ∧
        [sample_pre, sample_ss_7].flatten = CMD_PRESSURE ++ 58 :: [55] ++ [LF]) ∧
      (write_calls State.init ([sample_pre, sample_ss_7].map ok_call)).2 =
        [Event.parse_command CMD_PRESSURE ([55] ++ [LF]),
         Event.command_pressure ([55] ++ [LF])] :=
  ⟨by decide,
   (press_end_to_end [55] [sample_pre, sample_ss_7] (by decide) (by decide) (by decide)
     (by decide) (by decide) (by decide)).1⟩

/-- C7, as stated, fails: after "PRESS:7" and a line feed, written from the initial state,
the line handed to `command_buffer_parse_line` is "PRESS:7\n", terminator included, of
length 8, not "PRESS:7" of length 7. -/
theorem line_excludes_terminator_fails :
    lines_handed State.init [ok_call ([80, 82, 69, 83, 83, 58, 55] ++ [LF])] ≠
        [[80, 82, 69, 83, 83, 58, 55]] ∧
      lines_handed State.init [ok_call ([80, 82, 69, 83, 83, 58, 55] ++ [LF])] =
        [[80, 82, 69, 83, 83, 58, 55, 10]] := by
  decide

/-- C7, amended: for every sequence `w` of at most 18 bytes other than the terminator,
written from cursor 0 (in calls of at most 10 bytes) and followed by a line feed, exactly
one line is handed to `command_buffer_parse_line`; it is `w` followed by the line feed and
its length is the number of bytes written since the reset, the line feed counted. -/
theorem line_includes_terminator (s : State) (w : List Nat) (cs : List (List Nat))
    (hpos : s.command_buffer_pos = 0) (hlen : s.command_buffer.length = 20)
    (hw : LF ∉ w) (hwl : w.length + 1 < 20)
    (hcs : ∀ c ∈ cs, c.length ≤ 10) (hjoin : cs.flatten = w ++ [LF]) :
    lines_handed s (cs.map ok_call) = [w ++ [LF]] ∧
      (lines_handed s (cs.map ok_call)).map List.length = [w.length + 1] := by
  have hline := write_loop_with_line (fun line => [line]) s w hpos hlen hw
    (by simp only [command_buffer_length]; omega)
  have hmod : (w.length + 1) % command_buffer_length = (w ++ [LF]).length := by
    simp only [command_buffer_length, List.length_append, List.length_cons, List.length_nil]
    omega
  have e : lines_handed s (cs.map ok_call) = [w ++ [LF]] := by
    unfold lines_handed
    rw [write_calls_with_ok _ _ _ hcs, hjoin, hline, hmod, List.take_length]
  rw [e]
  exact ⟨rfl, by simp⟩

/-- Instance of `line_includes_terminator` at "FOO:bar", offered as "FOO" then ":bar\n". -/
theorem line_includes_terminator_witness :
    (State.init.command_buffer_pos = 0 ∧ State.init.command_buffer.length = 20 ∧
        LF ∉ [70, 79, 79, 58, 98, 97, 114] ∧ [70, 79, 79, 58, 98, 97, 114].length + 1 < 20 ∧
        (∀ c ∈ [[70, 79, 79], [58, 98, 97, 114, 10]], c.length ≤ 10) ∧
        [[70, 79, 79], [58, 98, 97, 114, 10]].flatten = [70, 79, 79, 58, 98, 97, 114] ++ [LF]) ∧
      lines_handed State.init ([[70, 79, 79], [58, 98, 97, 114, 10]].map ok_call) =
        [[70, 79, 79, 58, 98, 97, 114] ++ [LF]] :=
  ⟨by decide,
   (line_includes_terminator State.init [70, 79, 79, 58, 98, 97, 114]
     [[70, 79, 79], [58, 98, 97, 114, 10]] (by decide) (by decide) (by decide) (by decide)
     (by decide) (by decide)).1⟩

/-- C8, as stated, fails: after 25 bytes "x" and a line feed, written from the initial
state, the line handed to the parser is "xxxxx\n" (6 bytes), not twenty "x". -/
theorem wraparound_last_capacity_fails :
    lines_handed State.init
        [ok_call sample_x10, ok_call sample_x10, ok_call sample_x5_LF] ≠
        [List.replicate 20 120] ∧
      lines_handed State.init
        [ok_call sample_x10, ok_call sample_x10, ok_call sample_x5_LF] =
        [[120, 120, 120, 120, 120, 10]] := by
  decide

/-- C8, amended: for every sequence `w` of `n > 20` bytes other than the terminator, written
from cursor 0 (in calls of at most 10 bytes) and followed by a line feed, exactly one line is
handed to the parser: the last `(n + 1) % 20` bytes of what was written, the line feed
counted (25 bytes "x" then a line feed give "xxxxx\n"). -/
theorem wraparound_keeps_tail (s : State) (w : List Nat) (cs : List (List Nat))
    (hpos : s.command_buffer_pos = 0) (hlen : s.command_buffer.length = 20)
    (hw : LF ∉ w) (_hwl : 20 < w.length)
    (hcs : ∀ c ∈ cs, c.length ≤ 10) (hjoin : cs.flatten = w ++ [LF]) :
    lines_handed s (cs.map ok_call) =
      [(w ++ [LF]).drop ((w ++ [LF]).length - (w.length + 1) % 20)] := by
  unfold lines_handed
  rw [write_calls_with_ok _ _ _ hcs, hjoin,
    (write_loop_with_wrap (fun line => [line]) s w hpos hlen hw).1]
  simp [command_buffer_length]

/-- Instance of `wraparound_keeps_tail` at 25 bytes "x", offered as 10 + 10 + 6 bytes. -/
theorem wraparound_keeps_tail_witness :
    (State.init.command_buffer_pos = 0 ∧ State.init.command_buffer.length = 20 ∧
        LF ∉ List.replicate 25 120 ∧ 20 < (List.replicate 25 120).length ∧
        (∀ c ∈ [sample_x10, sample_x10, sample_x5_LF], c.length ≤ 10) ∧
        [sample_x10, sample_x10, sample_x5_LF].flatten = List.replicate 25 120 ++ [LF]) ∧
      lines_handed State.init ([sample_x10, sample_x10, sample_x5_LF].map ok_call) =
        [(List.replicate 25 120 ++ [LF]).drop
          ((List.replicate 25 120 ++ [LF]).length - ((List.replicate 25 120).length + 1) % 20)] :=
  ⟨by decide,
   wraparound_keeps_tail State.init (List.replicate 25 120)
     [sample_x10, sample_x10, sample_x5_LF] (by decide) (by decide) (by decide) (by decide)
     (by decide) (by decide)⟩


/-! ## Consumed count and cursor invariant (C9, C10) -/

/-- C10: starting from `command_buffer_pos = 0` with the 20-byte array, after any sequence
of calls of the entry point (any bytes, any result of the copy) the cursor satisfies
`command_buffer_pos < 20` and the array still has 20 bytes, so the next store
`command_buffer[command_buffer_pos]` is in bounds; the same holds after every byte of the
loop. -/
theorem cursor_in_bounds (s : State) (calls : List (List Nat × Nat))
    (hpos : s.command_buffer_pos = 0) (hlen : s.command_buffer.length = 20) :
    (write_calls s calls).1.command_buffer_pos < 20 ∧
      (write_calls s calls).1.command_buffer.length = 20 ∧
      (∀ bs, (write_loop_with command_buffer_parse_line (write_calls s calls).1
          bs).1.command_buffer_pos < 20 ∧
        (write_loop_with command_buffer_parse_line (write_calls s calls).1
          bs).1.command_buffer.length = 20) := by
  have hs : s.wf := ⟨hlen, by rw [hpos]; decide⟩
  have h1 := write_calls_with_wf command_buffer_parse_line s calls hs
  refine ⟨h1.2, h1.1, fun bs => ?_⟩
  have h2 := write_loop_with_wf command_buffer_parse_line _ bs h1
  exact ⟨h2.2, h2.1⟩

/-- Instance of `cursor_in_bounds` at four calls from the initial state. -/
theorem cursor_in_bounds_witness :
    (State.init.command_buffer_pos = 0 ∧ State.init.command_buffer.length = 20) ∧
      (write_calls State.init [ok_call sample_x10, ok_call sample_x10,
        ok_call sample_x5_LF, ok_call sample_pre]).1.command_buffer_pos < 20 :=
  ⟨by decide,
   (cursor_in_bounds State.init [ok_call sample_x10, ok_call sample_x10,
     ok_call sample_x5_LF, ok_call sample_pre] (by decide) (by decide)).1⟩


/-! ## Ingested bytes, lines and reports: general facts -/

/-- A sequence of calls acts as the loop run over the bytes it ingests. -/
theorem write_calls_with_ingested {ε : Type} (k : List Nat → List ε) (s : State)
    (calls : List (List Nat × Nat)) :
    write_calls_with k s calls = write_loop_with k s (ingested calls) := by
  induction calls generalizing s with
  | nil => simp [write_calls_with, ingested, write_loop_with]
  | cons c cs ih =>
    have e : ingested (c :: cs) =
        c.1.take (min c.1.length buff_size - c.2) ++ ingested cs := by
      simp [ingested]
    rw [e, write_loop_with_append]
    simp only [write_calls_with, barometer_dev_fops_write_with, ih]

/-- The trace of the loop is the trace of the callee over the lines handed over, in order,
and the final state does not depend on the callee. -/
theorem write_loop_with_lines {ε : Type} (k : List Nat → List ε) (s : State)
    (bs : List Nat) :
    write_loop_with k s bs =
      ((write_loop_with (fun line => [line]) s bs).1,
       (write_loop_with (fun line => [line]) s bs).2.flatMap k) := by
  induction bs generalizing s with
  | nil => simp [write_loop_with]
  | cons b bs ih =>
    have hstate : (write_byte_with k s b).1 = (write_byte_with (fun line => [line]) s b).1 := by
      by_cases hb : b = LF <;> simp [write_byte_with, command_buffer_parse_with, hb]
    have hev : (write_byte_with k s b).2 =
        (write_byte_with (fun line => [line]) s b).2.flatMap k := by
      by_cases hb : b = LF <;> simp [write_byte_with, command_buffer_parse_with, hb]
    simp only [write_loop_with, List.flatMap_append]
    rw [ih (write_byte_with k s b).1, hstate, hev]

/-- One line is handed over per terminator byte. -/
theorem write_loop_with_lines_length (s : State) (bs : List Nat) :
    (write_loop_with (fun line => [line]) s bs).2.length = bs.count LF := by
  induction bs generalizing s with
  | nil => simp [write_loop_with]
  | cons b bs ih =>
    simp only [write_loop_with, List.length_append, ih, List.count_cons]
    by_cases hb : b = LF
    · simp [write_byte_with, command_buffer_parse_with, hb, Nat.add_comm]
    · simp [write_byte_with, hb]

/-- The three shapes of the trace of one line. -/
theorem parse_line_shape (line : List Nat) :
    (∃ l, command_buffer_parse_line line = [Event.invalid_line l]) ∨
      (∃ key v, command_buffer_parse_line line =
        [Event.parse_command key v, Event.command_pressure v]) ∨
      (∃ key v, command_buffer_parse_line line =
        [Event.parse_command key v, Event.unknown_command key]) := by
  unfold command_buffer_parse_line
  cases strstr line CMD_DELIMITER with
  | none => exact Or.inl ⟨_, rfl⟩
  | some len =>
    right
    simp only
    by_cases h : cstr (line.take len) = CMD_PRESSURE
    · exact Or.inl ⟨_, _, parse_command_of_pressure _ _ h⟩
    · exact Or.inr ⟨_, _, parse_command_of_unknown _ _ h⟩

theorem parse_line_start_count (line : List Nat) :
    ((command_buffer_parse_line line).filter Event.is_line_start).length = 1 := by
  rcases parse_line_shape line with ⟨l, h⟩ | ⟨key, v, h⟩ | ⟨key, v, h⟩ <;>
    simp [h, Event.is_line_start, Event.is_dispatch, Event.is_invalid]

theorem parse_line_outcome_count (line : List Nat) :
    ((command_buffer_parse_line line).filter Event.is_line_outcome).length = 1 := by
  rcases parse_line_shape line with ⟨l, h⟩ | ⟨key, v, h⟩ | ⟨key, v, h⟩ <;>
    simp [h, Event.is_line_outcome, Event.is_handler, Event.is_unknown, Event.is_invalid]

/-- When every element of a list contributes exactly one report that passes a test, the
number of passing reports is the length of the list. -/
theorem flatMap_filter_length_one {α β : Type} (f : α → List β) (p : β → Bool)
    (h : ∀ a, ((f a).filter p).length = 1) (l : List α) :
    ((l.flatMap f).filter p).length = l.length := by
  induction l with
  | nil => simp
  | cons a l ih =>
    simp only [List.flatMap_cons, List.filter_append, List.length_append, h a, ih,
      List.length_cons]
    omega


/-! ## Independence from stale storage: general facts -/

theorem write_byte_with_agree {ε : Type} (k : List Nat → List ε) (s t : State)
    (h : s.agree t) (b : Nat) :
    (write_byte_with k s b).2 = (write_byte_with k t b).2 ∧
      (write_byte_with k s b).1.agree (write_byte_with k t b).1 := by
  obtain ⟨hp, hl, hb⟩ := h
  have hset : ∀ i, i < s.command_buffer_pos + 1 →
      (s.command_buffer.set s.command_buffer_pos b)[i]? =
        (t.command_buffer.set s.command_buffer_pos b)[i]? := by
    intro i hi
    rw [List.getElem?_set, List.getElem?_set, hl]
    by_cases e : s.command_buffer_pos = i
    · simp [e]
    · simp only [e, if_false]
      exact hb i (by omega)
  have hle : (s.command_buffer_pos + 1) % command_buffer_length ≤ s.command_buffer_pos + 1 :=
    Nat.mod_le _ _
  have htake : (s.command_buffer.set s.command_buffer_pos b).take
        ((s.command_buffer_pos + 1) % command_buffer_length) =
      (t.command_buffer.set s.command_buffer_pos b).take
        ((s.command_buffer_pos + 1) % command_buffer_length) := by
    apply List.ext_getElem?
    intro m
    rw [List.getElem?_take, List.getElem?_take]
    by_cases hm : m < (s.command_buffer_pos + 1) % command_buffer_length
    · simp only [hm, if_true]
      exact hset m (by omega)
    · simp only [hm, if_false]
  by_cases hLF : b = LF
  · subst hLF
    have hev : (write_byte_with k s LF).2 = (write_byte_with k t LF).2 := by
      simp only [write_byte_with, if_true, command_buffer_parse_with, ← hp, htake]
    refine ⟨hev, ?_, ?_, ?_⟩
    · simp [write_byte_with, command_buffer_parse_with]
    · simp [write_byte_with, command_buffer_parse_with, hl]
    · intro i hi
      simp [write_byte_with, command_buffer_parse_with] at hi
  · have hst : ∀ u : State, write_byte_with k u b =
        ({ command_buffer := u.command_buffer.set u.command_buffer_pos b
           command_buffer_pos := (u.command_buffer_pos + 1) % command_buffer_length }, []) := by
      intro u; simp [write_byte_with, hLF]
    rw [hst s, hst t, ← hp]
    refine ⟨rfl, rfl, ?_, ?_⟩
    · simp only [List.length_set]; exact hl
    · intro i hi
      exact hset i (by simp only at hi; omega)

theorem write_loop_with_agree {ε : Type} (k : List Nat → List ε) (s t : State)
    (h : s.agree t) (bs : List Nat) :
    (write_loop_with k s bs).2 = (write_loop_with k t bs).2 ∧
      (write_loop_with k s bs).1.agree (write_loop_with k t bs).1 := by
  induction bs generalizing s t with
  | nil => exact ⟨rfl, h⟩
  | cons b bs ih =>
    obtain ⟨e1, a1⟩ := write_byte_with_agree k s t h b
    obtain ⟨e2, a2⟩ := ih _ _ a1
    simp only [write_loop_with]
    exact ⟨by rw [e1, e2], a2⟩

/-- States with cursor 0 and arrays of the same size agree, whatever the arrays hold. -/
theorem agree_of_cursor_zero (s t : State) (hs : s.command_buffer_pos = 0)
    (ht : t.command_buffer_pos = 0) (hl : s.command_buffer.length = t.command_buffer.length) :
    s.agree t :=
  ⟨hs.trans ht.symm, hl, fun i hi => absurd (hs ▸ hi) (Nat.not_lt_zero i)⟩

/-- After a terminator byte the cursor is 0 and the array is the one the byte was stored
into. -/
theorem write_loop_with_ends_LF {ε : Type} (k : List Nat → List ε) (s : State)
    (p : List Nat) :
    (write_loop_with k s (p ++ [LF])).1 =
      { command_buffer := (write_loop_with k s p).1.command_buffer.set
          (write_loop_with k s p).1.command_buffer_pos LF,
        command_buffer_pos := 0 } := by
  rw [write_loop_with_append]
  simp [write_loop_with, write_byte_with, command_buffer_parse_with]


/-! ## Reports per line, recovery and reset (C11 - C13) -/

/-- C11, as stated, fails: "FOO:bar\n", ingested from the initial state, holds one line
feed but yields two of the counted reports, the entry report of line 50 (`LineParsed`) and
the "unknown command" report of line 56 (`UnknownCommand`). -/
theorem one_report_per_line_fails :
    ((write_calls State.init [ok_call sample_foo_bar]).2.filter Event.is_line_report).length ≠
        (ingested [ok_call sample_foo_bar]).count LF ∧
      (write_calls State.init [ok_call sample_foo_bar]).2 =
        [Event.parse_command [70, 79, 79] [98, 97, 114, 10],
         Event.unknown_command [70, 79, 79]] ∧
      (ingested [ok_call sample_foo_bar]).count LF = 1 := by
  decide

/-- C11, amended: for every sequence of calls from any state, the number of lines handed to
`command_buffer_parse_line` equals the number of line feeds among the bytes ingested; the
trace is the concatenation, in terminator order, of the traces of these lines; and each line
contributes exactly one opening report (`LineParsed` or `MalformedLine`) and exactly one
closing report (handler run, `UnknownCommand` or `MalformedLine`). -/
theorem one_line_per_terminator (s : State) (calls : List (List Nat × Nat)) :
    (lines_handed s calls).length = (ingested calls).count LF ∧
      (write_calls s calls).2 = (lines_handed s calls).flatMap command_buffer_parse_line ∧
      ((write_calls s calls).2.filter Event.is_line_start).length =
        (ingested calls).count LF ∧
      ((write_calls s calls).2.filter Event.is_line_outcome).length =
        (ingested calls).count LF := by
  have hlen : (lines_handed s calls).length = (ingested calls).count LF := by
    unfold lines_handed
    rw [write_calls_with_ingested, write_loop_with_lines_length]
  have hev : (write_calls s calls).2 =
      (lines_handed s calls).flatMap command_buffer_parse_line := by
    unfold write_calls lines_handed
    rw [write_calls_with_ingested, write_calls_with_ingested, write_loop_with_lines]
  refine ⟨hlen, hev, ?_, ?_⟩
  · rw [hev, flatMap_filter_length_one _ _ parse_line_start_count, hlen]
  · rw [hev, flatMap_filter_length_one _ _ parse_line_outcome_count, hlen]

/-- C12: for every sequence of calls whose ingested bytes end in a line feed (whatever its
lines were) and every further sequence of calls, the trace of the further calls, and the
lines handed to the parser during them, are those of the same calls made from the initial
state; more generally the trace from cursor 0 does not depend on what the array holds. -/
theorem no_persistent_error_state (pcalls calls : List (List Nat × Nat)) (p : List Nat)
    (hp : ingested pcalls = p ++ [LF]) :
    (write_calls (write_calls State.init pcalls).1 calls).2 =
        (write_calls State.init calls).2 ∧
      lines_handed (write_calls State.init pcalls).1 calls = lines_handed State.init calls ∧
      (∀ buf : List Nat, buf.length = 20 →
        (write_calls { command_buffer := buf, command_buffer_pos := 0 } calls).2 =
          (write_calls State.init calls).2) := by
  have hwf := write_calls_with_wf command_buffer_parse_line State.init pcalls (by decide)
  have hpos : (write_calls State.init pcalls).1.command_buffer_pos = 0 := by
    unfold write_calls
    rw [write_calls_with_ingested, hp, write_loop_with_ends_LF]
  have hagree : (write_calls State.init pcalls).1.agree State.init :=
    agree_of_cursor_zero _ _ hpos rfl (by rw [write_calls]; exact hwf.1)
  refine ⟨?_, ?_, ?_⟩
  · unfold write_calls at hagree ⊢
    rw [write_calls_with_ingested _ _ calls, write_calls_with_ingested _ _ calls]
    exact (write_loop_with_agree _ _ _ hagree _).1
  · unfold lines_handed
    rw [write_calls_with_ingested _ _ calls, write_calls_with_ingested _ _ calls]
    exact (write_loop_with_agree _ _ _ hagree _).1
  · intro buf hbuf
    unfold write_calls
    rw [write_calls_with_ingested, write_calls_with_ingested]
    exact (write_loop_with_agree _ _ _
      (agree_of_cursor_zero _ State.init rfl rfl (by simpa [State.init] using hbuf)) _).1

/-- Instance of `no_persistent_error_state`: after the malformed line "nodelim\n", the calls
"PRE" and "SS:7\n" are reported as from the initial state. -/
theorem no_persistent_error_state_witness :
    ingested [ok_call sample_nodelim] = [110, 111, 100, 101, 108, 105, 109] ++ [LF] ∧
      (write_calls (write_calls State.init [ok_call sample_nodelim]).1
          [ok_call sample_pre, ok_call sample_ss_7]).2 =
        (write_calls State.init [ok_call sample_pre, ok_call sample_ss_7]).2 :=
  ⟨by decide,
   (no_persistent_error_state [ok_call sample_nodelim]
     [ok_call sample_pre, ok_call sample_ss_7] [110, 111, 100, 101, 108, 105, 109]
     (by decide)).1⟩

/-- C13: for every state and every sequence of calls whose ingested bytes end in a line
feed, the cursor is 0 afterwards and the array is exactly as the stores left it (the array
before the line feed with the line feed stored at the cursor); `command_buffer_parse`
itself changes the cursor only. -/
theorem cursor_reset_after_line (s : State) (calls : List (List Nat × Nat)) (p : List Nat)
    (hp : ingested calls = p ++ [LF]) :
    (write_calls s calls).1.command_buffer_pos = 0 ∧
      (write_calls s calls).1.command_buffer =
        (write_loop_with command_buffer_parse_line s p).1.command_buffer.set
          (write_loop_with command_buffer_parse_line s p).1.command_buffer_pos LF ∧
      (∀ t : State, (command_buffer_parse t).1 = { t with command_buffer_pos := 0 }) := by
  unfold write_calls
  rw [write_calls_with_ingested, hp, write_loop_with_ends_LF]
  exact ⟨rfl, rfl, fun t => rfl⟩

/-- Instance of `cursor_reset_after_line` at "PRE" then "SS:7\n" from the initial state. -/
theorem cursor_reset_after_line_witness :
    ingested [ok_call sample_pre, ok_call sample_ss_7] = [80, 82, 69, 83, 83, 58, 55] ++ [LF] ∧
      (write_calls State.init [ok_call sample_pre, ok_call sample_ss_7]).1.command_buffer_pos
        = 0 :=
  ⟨by decide,
   (cursor_reset_after_line State.init [ok_call sample_pre, ok_call sample_ss_7]
     [80, 82, 69, 83, 83, 58, 55] (by decide)).1⟩


/-! ## Silent overwrite and the transport cap (C14, C15) -/

/-- C14: for every sequence of calls whose ingested bytes contain no line feed, of any
length, from a state whose cursor is in range, no report is made, no handler runs and no
line is handed to the parser; the array keeps its size and the cursor ends at
(old cursor + number of bytes) mod 20. -/
theorem overwrite_is_silent (s : State) (calls : List (List Nat × Nat))
    (hs : s.command_buffer_pos < 20) (h : LF ∉ ingested calls) :
    (write_calls s calls).2 = [] ∧
      lines_handed s calls = [] ∧
      (write_calls s calls).1.command_buffer_pos =
        (s.command_buffer_pos + (ingested calls).length) % 20 ∧
      (write_calls s calls).1.command_buffer.length = s.command_buffer.length := by
  obtain ⟨e1, e2, e3⟩ := write_loop_with_no_LF command_buffer_parse_line s _ h
  obtain ⟨l1, _, _⟩ := write_loop_with_no_LF (fun line => [line]) s _ h
  unfold write_calls lines_handed
  rw [write_calls_with_ingested, write_calls_with_ingested]
  refine ⟨e1, l1, ?_, e3⟩
  rw [e2]
  split
  · next hnil => simp [hnil, Nat.mod_eq_of_lt hs]
  · rfl

/-- Instance of `overwrite_is_silent`: 25 bytes "x" from the initial state, offered as
10 + 10 + 5 bytes, leave the cursor at 5 without any report. -/
theorem overwrite_is_silent_witness :
    (State.init.command_buffer_pos < 20 ∧
        LF ∉ ingested [ok_call sample_x10, ok_call sample_x10,
          ok_call (List.replicate 5 120)]) ∧
      (write_calls State.init [ok_call sample_x10, ok_call sample_x10,
          ok_call (List.replicate 5 120)]).2 = [] ∧
      (write_calls State.init [ok_call sample_x10, ok_call sample_x10,
          ok_call (List.replicate 5 120)]).1.command_buffer_pos = 5 :=
  ⟨by decide,
   (overwrite_is_silent State.init [ok_call sample_x10, ok_call sample_x10,
     ok_call (List.replicate 5 120)] (by decide) (by decide)).1,
   by decide⟩

/-- C15: for every call offering `count` bytes with a successful copy, the entry point
returns `min count 10`, and its effect is that of the loop body run over the first
`min count 10` bytes in order (equivalently, of offering them one per call); the bytes
beyond the tenth have no effect: two offers with the same first 10 bytes act alike. -/
theorem transport_cap (s : State) (bs : List Nat) :
    (barometer_dev_fops_write s bs 0).2.2 = min bs.length 10 ∧
      ((barometer_dev_fops_write s bs 0).1, (barometer_dev_fops_write s bs 0).2.1) =
        write_loop_with command_buffer_parse_line s (bs.take (min bs.length 10)) ∧
      ((barometer_dev_fops_write s bs 0).1, (barometer_dev_fops_write s bs 0).2.1) =
        write_calls s (bytewise (bs.take 10)) ∧
      (∀ cs : List Nat, cs.take 10 = bs.take 10 →
        ((barometer_dev_fops_write s cs 0).1, (barometer_dev_fops_write s cs 0).2.1) =
          ((barometer_dev_fops_write s bs 0).1, (barometer_dev_fops_write s bs 0).2.1)) := by
  have hmin : ∀ cs : List Nat, cs.take (min cs.length 10) = cs.take 10 := by
    intro cs
    by_cases h : cs.length ≤ 10
    · rw [Nat.min_eq_left h, List.take_of_length_le h, List.take_of_length_le (le_refl _)]
    · rw [Nat.min_eq_right (by omega)]
  have hrun : ∀ cs : List Nat,
      ((barometer_dev_fops_write s cs 0).1, (barometer_dev_fops_write s cs 0).2.1) =
        write_loop_with command_buffer_parse_line s (cs.take (min cs.length 10)) := by
    intro cs
    simp [barometer_dev_fops_write, barometer_dev_fops_write_with, buff_size]
  refine ⟨?_, hrun bs, ?_, ?_⟩
  · simp [barometer_dev_fops_write, barometer_dev_fops_write_with, buff_size]
  · rw [hrun bs, hmin]
    unfold write_calls
    rw [write_calls_with_bytewise]
  · intro cs hcs
    rw [hrun cs, hrun bs, hmin cs, hmin bs, hcs]


/-! ## The framing rule and the parser buffers (C16 - C18) -/

/-- The line cut at a terminator is the start of the array as the stores left it, up to
the advanced cursor. -/
theorem write_loop_with_LF_storage {ε : Type} (k : List Nat → List ε) (s : State)
    (w : List Nat) (hw : LF ∉ w) :
    (write_loop_with k s (w ++ [LF])).2 =
      k ((write_loop_with k s (w ++ [LF])).1.command_buffer.take
        ((s.command_buffer_pos + w.length + 1) % command_buffer_length)) := by
  obtain ⟨e1, e2, _⟩ := write_loop_with_no_LF k s w hw
  have hcur : ((write_loop_with k s w).1.command_buffer_pos + 1) % command_buffer_length =
      (s.command_buffer_pos + w.length + 1) % command_buffer_length := by
    rw [e2]
    split
    · next hnil => simp [hnil]
    · simp only [command_buffer_length]; omega
  rw [write_loop_with_ends_LF, write_loop_with_append, e1]
  simp [write_loop_with, write_byte_with, command_buffer_parse_with, hcur]

theorem cstr_length_le (l : List Nat) : (cstr l).length ≤ l.length := by
  induction l with
  | nil => simp [cstr]
  | cons c cs ih =>
    by_cases hc : c = 0
    · simp [cstr, hc]
    · simp only [cstr, hc, if_false, List.length_cons]; omega

theorem strstr_from_delim_lt (l : List Nat) (n : Nat) (h : strstr_from [58] l = some n) :
    n < l.length := by
  induction l generalizing n with
  | nil => simp [strstr_from] at h
  | cons c cs ih =>
    by_cases hc : 58 = c
    · simp [strstr_from, starts_with, hc] at h
      subst h; simp
    · simp only [strstr_from, starts_with, hc, decide_False, Bool.false_and,
        Bool.false_eq_true, if_false, Option.map_eq_some'] at h
      obtain ⟨m, hm, rfl⟩ := h
      have := ih m hm
      simp only [List.length_cons]; omega

theorem strstr_delim_lt (line : List Nat) (len : Nat)
    (h : strstr line CMD_DELIMITER = some len) : len < line.length := by
  have hd : cstr CMD_DELIMITER = [58] := by decide
  rw [strstr, hd] at h
  exact Nat.lt_of_lt_of_le (strstr_from_delim_lt _ _ h) (cstr_length_le line)

/-- Every line handed over is cut at a cursor below 20, so it has at most 19 bytes. -/
theorem write_loop_with_lines_short (s : State) (bs : List Nat) :
    ∀ line ∈ (write_loop_with (fun line => [line]) s bs).2, line.length ≤ 19 := by
  induction bs generalizing s with
  | nil => simp [write_loop_with]
  | cons b bs ih =>
    intro line hline
    simp only [write_loop_with, List.mem_append] at hline
    rcases hline with h | h
    · by_cases hb : b = LF
      · simp only [write_byte_with, hb, if_true, command_buffer_parse_with,
          List.mem_singleton] at h
        rw [h]
        have h1 := List.length_take_le ((s.command_buffer_pos + 1) % command_buffer_length)
          (s.command_buffer.set s.command_buffer_pos LF)
        have h2 : (s.command_buffer_pos + 1) % command_buffer_length < 20 :=
          Nat.mod_lt _ (by decide)
        omega
      · simp [write_byte_with, hb] at h
    · exact ih _ line h


/-- C16: for every sequence `w` of `n` bytes other than the terminator and NUL, ingested
from a state with cursor 0 and followed by a line feed, exactly one line is handed to
`command_buffer_parse_line`: the first `(n + 1) % 20` bytes of the array, which are the last
`(n + 1) % 20` bytes of `w ++ [LF]`; when not empty it ends with the line feed. -/
theorem actual_framing_rule (s : State) (w : List Nat) (calls : List (List Nat × Nat))
    (hpos : s.command_buffer_pos = 0) (hlen : s.command_buffer.length = 20)
    (hw : LF ∉ w) (_h0 : 0 ∉ w) (hing : ingested calls = w ++ [LF]) :
    lines_handed s calls =
        [(write_calls s calls).1.command_buffer.take ((w.length + 1) % 20)] ∧
      lines_handed s calls =
        [(w ++ [LF]).drop ((w ++ [LF]).length - (w.length + 1) % 20)] ∧
      (∀ line ∈ lines_handed s calls, line ≠ [] → line.getLast? = some LF) := by
  have hstate : (write_loop_with command_buffer_parse_line s (w ++ [LF])).1 =
      (write_loop_with (fun line => [line]) s (w ++ [LF])).1 := by
    rw [write_loop_with_lines command_buffer_parse_line]
  have h1 : lines_handed s calls =
      [(write_calls s calls).1.command_buffer.take ((w.length + 1) % 20)] := by
    unfold lines_handed write_calls
    rw [write_calls_with_ingested, write_calls_with_ingested, hing, hstate,
      write_loop_with_LF_storage _ s w hw, hpos]
    simp [command_buffer_length]
  have h2 : lines_handed s calls =
      [(w ++ [LF]).drop ((w ++ [LF]).length - (w.length + 1) % 20)] := by
    unfold lines_handed
    rw [write_calls_with_ingested, hing,
      (write_loop_with_wrap (fun line => [line]) s w hpos hlen hw).1]
    simp [command_buffer_length]
  refine ⟨h1, h2, ?_⟩
  intro line hline hne
  rw [h2, List.mem_singleton] at hline
  subst hline
  have hm : (w ++ [LF]).length - (w.length + 1) % 20 ≤ w.length := by
    by_contra hcon
    apply hne
    apply List.drop_eq_nil_of_le
    simp only [List.length_append, List.length_cons, List.length_nil] at hcon ⊢
    omega
  rw [List.drop_append_of_le_length hm]
  simp

/-- Instance of `actual_framing_rule` at 25 bytes "x" and a line feed from the initial
state: the line is "xxxxx\n". -/
theorem actual_framing_rule_witness :
    (State.init.command_buffer_pos = 0 ∧ State.init.command_buffer.length = 20 ∧
        LF ∉ List.replicate 25 120 ∧ 0 ∉ List.replicate 25 120 ∧
        ingested [ok_call sample_x10, ok_call sample_x10, ok_call sample_x5_LF] =
          List.replicate 25 120 ++ [LF]) ∧
      lines_handed State.init [ok_call sample_x10, ok_call sample_x10, ok_call sample_x5_LF] =
        [(write_calls State.init [ok_call sample_x10, ok_call sample_x10,
          ok_call sample_x5_LF]).1.command_buffer.take
            (((List.replicate 25 120).length + 1) % 20)] ∧
      lines_handed State.init [ok_call sample_x10, ok_call sample_x10, ok_call sample_x5_LF] =
        [[120, 120, 120, 120, 120, 10]] :=
  ⟨by decide,
   (actual_framing_rule State.init (List.replicate 25 120)
     [ok_call sample_x10, ok_call sample_x10, ok_call sample_x5_LF]
     (by decide) (by decide) (by decide) (by decide) (by decide)).1,
   by decide⟩

/-- C17: for every sequence `w` of bytes other than the terminator with `length w + 1`
divisible by 20 (such as the 19 bytes of "PRESS:1234567890123"), ingesting `w` and a line
feed from a state with cursor 0 hands the empty line to the parser; the only report is the
"invalid line" report for the empty line and no handler runs, whatever `w` holds. -/
theorem full_buffer_line_lost (s : State) (w : List Nat) (calls : List (List Nat × Nat))
    (hpos : s.command_buffer_pos = 0) (hlen : s.command_buffer.length = 20)
    (hw : LF ∉ w) (hdiv : (w.length + 1) % 20 = 0) (hing : ingested calls = w ++ [LF]) :
    lines_handed s calls = [[]] ∧
      (write_calls s calls).2 = [Event.invalid_line []] ∧
      (write_calls s calls).2.filter Event.is_handler = [] := by
  have hline : ∀ {ε : Type} (k : List Nat → List ε),
      (write_calls_with k s calls).2 = k [] := by
    intro ε k
    rw [write_calls_with_ingested, hing, (write_loop_with_wrap k s w hpos hlen hw).1]
    simp only [command_buffer_length, hdiv, Nat.sub_zero]
    rw [List.drop_eq_nil_of_le (by simp)]
  have hev : (write_calls s calls).2 = [Event.invalid_line []] := by
    unfold write_calls
    rw [hline]; rfl
  refine ⟨?_, hev, ?_⟩
  · unfold lines_handed
    rw [hline]
  · rw [hev]; rfl

/-- Instance of `full_buffer_line_lost` at "PRESS:1234567890123" and a line feed from the
initial state, offered as 10 + 10 bytes. -/
theorem full_buffer_line_lost_witness :
    (State.init.command_buffer_pos = 0 ∧ State.init.command_buffer.length = 20 ∧
        LF ∉ sample_press_19 ∧ (sample_press_19.length + 1) % 20 = 0 ∧
        ingested sample_press_19_calls = sample_press_19 ++ [LF]) ∧
      lines_handed State.init sample_press_19_calls = [[]] ∧
      (write_calls State.init sample_press_19_calls).2 = [Event.invalid_line []] :=
  ⟨by decide,
   (full_buffer_line_lost State.init sample_press_19 sample_press_19_calls
     (by decide) (by decide) (by decide) (by decide) (by decide)).1,
   (full_buffer_line_lost State.init sample_press_19 sample_press_19_calls
     (by decide) (by decide) (by decide) (by decide) (by decide)).2.1⟩

/-- C18: in every run from the initial state, every line that `command_buffer_parse` builds
has at most 19 bytes (so its terminating NUL lies inside `line[21]`); when the line has a
delimiter at offset `len`, the key `line.take len` and the value string after the delimiter,
which are what `command_buffer_parse_line` dispatches, have at most 19 bytes each, so every
index written into `key[64]` and `value[64]`, terminating NUL included, is below 64. -/
theorem parser_buffers_in_bounds (calls : List (List Nat × Nat)) (line : List Nat)
    (hline : line ∈ lines_handed State.init calls) :
    line.length ≤ 19 ∧ line.length < 21 ∧
      (∀ len, strstr line CMD_DELIMITER = some len →
        command_buffer_parse_line line =
            command_buffer_parse_command (line.take len) (cstr (line.drop (len + 1))) ∧
          (line.take len).length = len ∧ len ≤ 19 ∧ len < 64 ∧
          (cstr (line.drop (len + 1))).length ≤ 19 ∧
          (cstr (line.drop (len + 1))).length + 1 ≤ 64) := by
  have hshort : line.length ≤ 19 := by
    unfold lines_handed at hline
    rw [write_calls_with_ingested] at hline
    exact write_loop_with_lines_short _ _ line hline
  refine ⟨hshort, by omega, ?_⟩
  intro len hlen
  have hlt := strstr_delim_lt line len hlen
  have hval : (cstr (line.drop (len + 1))).length ≤ 19 := by
    have := cstr_length_le (line.drop (len + 1))
    rw [List.length_drop] at this
    omega
  refine ⟨?_, ?_, by omega, by omega, hval, by omega⟩
  · simp [command_buffer_parse_line, hlen]
  · rw [List.length_take]; omega

/-- Instance of `parser_buffers_in_bounds` at the line of "FOO:bar\n" from the initial
state. -/
theorem parser_buffers_in_bounds_witness :
    sample_foo_bar ∈ lines_handed State.init [ok_call sample_foo_bar] ∧
      sample_foo_bar.length ≤ 19 :=
  ⟨by decide,
   (parser_buffers_in_bounds [ok_call sample_foo_bar] sample_foo_bar (by decide)).1⟩

end Barometer
